import Mathlib

/-!
Verification of the migration-management tooling of the FAST-API-BASE
repository (`manage.py`, `scripts/migrate.py`, `scripts/check_migrations.py`).

The tooling is a thin orchestration layer over a revision store: a set of
migration revisions, each with a unique string identifier and a link to its
predecessor (`down_revision`), a persisted marker table holding the identifier
of the last applied revision, and commands that plan/apply/revert/inspect
revisions.

The embedding below represents the revision store as a `List Revision` kept in
newest-first order, which is the order the store's `walk_revisions` iterator
yields revisions in the source (the source reverses it with the comment
"Reverse to show oldest first" whenever it wants oldest-first display order).
The persisted marker is a small inductive capturing the three observable
database states the source distinguishes: marker table absent (the `SELECT`
raises), table present but empty (`scalar()` gives `None`), and a row holding
a revision id.  Success or failure of the externally executed apply/revert
action of a revision is modelled by a boolean oracle on revision ids.
-/

/-- One migration revision: unique identifier, link to the predecessor
revision (`none` for the root), and the human-readable message. -/
structure Revision where
  revision : String
  down_revision : Option String
  doc : String
deriving DecidableEq, Repr

/-- Modelled from the spec: RevisionGraph `get(revisionId)` — lookup of a
revision by identifier in the loaded store (the source delegates this to the
migration framework's `ScriptDirectory.get_revision`). -/
def get_revision (revs : List Revision) (id : String) : Option Revision :=
  revs.find? (fun r => r.revision == id)

/-- The backward walk of `manage.py migrate` (lines 294-305): start from the
revision record of the target, append revisions while the walker has a
revision and its id differs from the current revision, following
`down_revision` links and stopping at the root.  The Python `while` loop has
no fuel; here fuel bounds the number of iterations and is instantiated with
the size of the store, which is enough for any acyclic store. -/
def walkBack (revs : List Revision) : Nat → Option Revision → Option String → List Revision
  | 0, _, _ => []
  | _ + 1, none, _ => []
  | fuel + 1, some rev, current_rev =>
    if some rev.revision = current_rev then []
    else
      match rev.down_revision with
      | some d => rev :: walkBack revs fuel (get_revision revs d) current_rev
      | none => [rev]

/-- The upgrade planning of `manage.py migrate`: if the current revision
already equals the target there is nothing to do (lines 290-293), otherwise
walk backward from the target until reaching the current revision (or the
root) and reverse the collected list into oldest-to-newest execution order
(lines 294-305). -/
def planUpgrade (revs : List Revision) (current_rev target : Option String) : List Revision :=
  if current_rev = target then []
  else (walkBack revs revs.length (target.bind fun t => get_revision revs t) current_rev).reverse

/-- The final marker state after a sequence of successful applies: the id of
the last revision of the executed prefix, or the initial state when the
prefix is empty. -/
def lastState (plan : List Revision) (st : Option String) : Option String :=
  match plan.getLast? with
  | some r => some r.revision
  | none => st

/-- The apply loop of `manage.py migrate` (lines 311-323) for a computed plan:
each revision is applied in order via one `command.upgrade` call targeting
exactly that revision, which on success also persists it as the new current
revision; on failure the loop prints `FAILED` naming the revision being
applied and re-raises, so no later revision is attempted and the marker keeps
the last successfully applied value.  The result is the triple of the final
marker state, the ids attempted in order, and the id reported on failure. -/
def runUpgrade (apply : String → Bool) : List Revision → Option String → Option String × List String × Option String
  | [], st => (st, [], none)
  | r :: rest, st =>
    if apply r.revision then
      let res := runUpgrade apply rest (some r.revision)
      (res.1, r.revision :: res.2.1, res.2.2)
    else (st, [r.revision], some r.revision)

/-- The `migrate` command of `manage.py` (no explicit target): no-op when the
current revision equals the head revision, otherwise plan from head and apply
the plan revision by revision. -/
def migrate (revs : List Revision) (apply : String → Bool) (current_rev head_rev : Option String) :
    Option String × List String × Option String :=
  if current_rev = head_rev then (current_rev, [], none)
  else runUpgrade apply (planUpgrade revs current_rev head_rev) current_rev

/-- A linear chain built from a newest-first list of identifiers: each
revision's `down_revision` is the next (older) identifier in the list, and the
oldest has none. -/
def chainRevs : List String → List Revision
  | [] => []
  | a :: rest => ⟨a, rest.head?, ""⟩ :: chainRevs rest

/-- The same linear chain in oldest-to-newest order, built from an
oldest-first list of identifiers. -/
def mkChain (ids : List String) : List Revision :=
  (chainRevs ids.reverse).reverse

/-- The three observable states of the persisted marker (`alembic_version`)
that the source distinguishes when it runs
`SELECT version_num FROM alembic_version`: the table is absent and the query
raises, the table exists but holds no row, or a row holds a revision id. -/
inductive MarkerTable where
  | missing : MarkerTable
  | empty : MarkerTable
  | row : String → MarkerTable
deriving DecidableEq, Repr

/-- Reading the marker as `check_migrations.py` (lines 34-39, 94-100) and
`scripts/migrate.py showmigrations` do: the value of the single row, and
`none` both when the row is absent and when the query raises because the
table does not exist. -/
def read_marker : MarkerTable → Option String
  | MarkerTable.missing => none
  | MarkerTable.empty => none
  | MarkerTable.row v => some v

/-- Modelled from the spec: RevisionGraph `head()` — "returns the unique
revision with no declared successor" (the source delegates this to the
migration framework's `ScriptDirectory.get_current_head`).  In the embedding:
the first stored revision that no other revision names as its predecessor. -/
def get_current_head (revs : List Revision) : Option String :=
  (revs.find? (fun r => !(revs.any (fun s => s.down_revision == some r.revision)))).map Revision.revision

/-- Modelled from the spec: the revision store iterator
(`ScriptDirectory.walk_revisions`) yields the loaded revisions newest-first;
the store is represented in that order, so the iterator is the identity. -/
def walk_revisions (revs : List Revision) : List Revision := revs

/-- `MigrationManager.check_pending` of `scripts/migrate.py` (lines 152-173):
if the engine cannot be created or connected the outer handler returns
`false`; if the marker table is missing the inner handler returns `true`
("all migrations are pending"); otherwise the row's value (or `none` when no
row) is compared with the head revision. -/
def check_pending (engineOk : Bool) (marker : MarkerTable) (revs : List Revision) : Bool :=
  if engineOk then
    match marker with
    | MarkerTable.missing => true
    | MarkerTable.empty => none ≠ get_current_head revs
    | MarkerTable.row v => some v ≠ get_current_head revs
  else false

/-- The `check` command of `scripts/migrate.py` (lines 328-336): exit code 1
when `check_pending` reports pending migrations, 0 otherwise. -/
def check_cmd (engineOk : Bool) (marker : MarkerTable) (revs : List Revision) : Nat :=
  if check_pending engineOk marker revs then 1 else 0

/-- The `migrate-check` command (`manage.py` lines 369-393 and
`check_migrations.py` lines 88-116): when the check runs to completion, exit
code 1 iff the current revision read from the marker differs from the head
revision; when the check itself raises (e.g. the database connection fails),
both entry points also exit with code 1. -/
def migrate_check (engineOk : Bool) (marker : MarkerTable) (revs : List Revision) : Nat :=
  if engineOk then
    if read_marker marker ≠ get_current_head revs then 1 else 0
  else 1

/-- The classification loop of `scripts/migrate.py showmigrations`
(lines 115-134), over the oldest-first revision list: `is_applied` is the
running `found_current` flag, forced to `true` on the revision equal to the
current one, at which point `found_current` also becomes `true`. -/
def showmigrationsLoop (current_rev : Option String) : List Revision → Bool → List (String × Bool)
  | [], _ => []
  | rev :: rest, found_current =>
    let is_applied := found_current || decide (some rev.revision = current_rev)
    (rev.revision, is_applied) :: showmigrationsLoop current_rev rest is_applied

/-- `MigrationManager.showmigrations` of `scripts/migrate.py`: read the
marker (missing table treated as no current revision), reverse the
newest-first revision walk to oldest-first, and classify each revision,
starting the `found_current` flag at "current revision is None". -/
def showmigrations (marker : MarkerTable) (revs : List Revision) : List (String × Bool) :=
  let current_rev := read_marker marker
  showmigrationsLoop current_rev (walk_revisions revs).reverse current_rev.isNone

/-- `MigrationManager.history` of `scripts/migrate.py` (lines 175-194): the
newest-first revision walk truncated to the first `limit` entries. -/
def history (revs : List Revision) (limit : Nat) : List Revision :=
  (walk_revisions revs).take limit

/-- The `migrate-history` command of `manage.py` (lines 396-415): the revision
walk reversed to oldest-first and printed in full; the command takes no limit
argument. -/
def migrate_history (revs : List Revision) : List Revision :=
  (walk_revisions revs).reverse

/-- Modelled from the spec: MigrationPlanner `planDowngrade(current, steps)` —
"walks backward from current exactly `steps` times (or until root, whichever
first), collecting the revisions to revert, in current-to-oldest order".
`MigrationManager.rollback` (lines 74-86) delegates this resolution of the
relative target `-steps` to the external migration framework's
`command.downgrade`. -/
def planDowngrade (revs : List Revision) : Nat → String → List Revision
  | 0, _ => []
  | steps + 1, cur =>
    match get_revision revs cur with
    | none => []
    | some r =>
      match r.down_revision with
      | some d => r :: planDowngrade revs steps d
      | none => [r]

/-- The final marker state after a sequence of successful reverts: the
predecessor of the last reverted revision, or the initial state when nothing
was reverted. -/
def lastDown (plan : List Revision) (st : Option String) : Option String :=
  match plan.getLast? with
  | some r => r.down_revision
  | none => st

/-- Modelled from the spec: MigrationRunner `downgrade(plan)` — the
per-revision revert loop executed inside the external framework's
`command.downgrade` on behalf of `MigrationManager.rollback`: each revision of
the plan is reverted in order; on success the marker becomes the reverted
revision's predecessor (or none); on failure the loop aborts reporting that
revision, leaving the marker at the last consistent boundary. -/
def runDowngrade (revert : String → Bool) : List Revision → Option String → Option String × List String × Option String
  | [], st => (st, [], none)
  | r :: rest, st =>
    if revert r.revision then
      let res := runDowngrade revert rest r.down_revision
      (res.1, r.revision :: res.2.1, res.2.2)
    else (st, [r.revision], some r.revision)

/-- The predicate under which the backward walk keeps collecting: the
revision is not the current one. -/
def notCurrent (current_rev : Option String) (r : Revision) : Bool :=
  !(decide (some r.revision = current_rev))

/-! ### Basic facts about linear chains -/

lemma chainRevs_cons (a : String) (rest : List String) :
    chainRevs (a :: rest) = ⟨a, rest.head?, ""⟩ :: chainRevs rest := rfl

lemma chainRevs_length (L : List String) : (chainRevs L).length = L.length := by
  induction L with
  | nil => rfl
  | cons a rest ih => simp [chainRevs_cons, ih]

lemma chainRevs_map_revision (L : List String) :
    (chainRevs L).map Revision.revision = L := by
  induction L with
  | nil => rfl
  | cons a rest ih => simp [chainRevs_cons, ih]

lemma chainRevs_down_mem (L : List String) (s : Revision) (hs : s ∈ chainRevs L)
    (y : String) (hy : s.down_revision = some y) : y ∈ L := by
  induction L with
  | nil => simp [chainRevs] at hs
  | cons a rest ih =>
    rw [chainRevs_cons, List.mem_cons] at hs
    rcases hs with h | h
    · subst h
      simp only at hy
      exact List.mem_cons_of_mem _ (List.mem_of_mem_head? hy)
    · exact List.mem_cons_of_mem _ (ih h)

lemma get_revision_chainRevs (L : List String) (hN : L.Nodup) :
    ∀ (l : List String) (q : String) (rest : List String), l <:+ L → l = q :: rest →
      get_revision (chainRevs L) q = some ⟨q, rest.head?, ""⟩ := by
  induction L with
  | nil =>
    intro l q rest hsuf hl
    subst hl
    have := hsuf.length_le
    simp at this
  | cons a L' ih =>
    intro l q rest hsuf hl
    subst hl
    rw [chainRevs_cons]
    by_cases hq : q = a
    · subst hq
      have hLeq : q :: rest = q :: L' := by
        rcases List.suffix_cons_iff.mp hsuf with h | h
        · exact h
        · exact absurd (h.subset (List.mem_cons_self q rest)) (List.nodup_cons.mp hN).1
      have hrest : rest = L' := by injection hLeq
      subst hrest
      rw [get_revision, List.find?_cons]
      simp
    · have hsuf' : q :: rest <:+ L' := by
        rcases List.suffix_cons_iff.mp hsuf with h | h
        · have hqa : q = a ∧ rest = L' := by simpa using h
          exact absurd hqa.1 hq
        · exact h
      have hprev := ih (List.nodup_cons.mp hN).2 (q :: rest) q rest hsuf' rfl
      have hne : (a == q) = false := beq_eq_false_iff_ne.mpr (Ne.symm hq)
      rw [get_revision] at hprev ⊢
      rw [List.find?_cons]
      simpa [hne] using hprev

lemma walkBack_none (revs : List Revision) (fuel : Nat) (c : Option String) :
    walkBack revs fuel none c = [] := by
  cases fuel <;> rfl

lemma walkBack_chainRevs (L : List String) (hN : L.Nodup) (current_rev : Option String) :
    ∀ (l : List String) (fuel : Nat), l <:+ L → l.length ≤ fuel →
      walkBack (chainRevs L) fuel (l.head?.bind fun q => get_revision (chainRevs L) q) current_rev
        = (chainRevs l).takeWhile (notCurrent current_rev) := by
  intro l
  induction l with
  | nil =>
    intro fuel _ _
    simp [chainRevs, walkBack_none]
  | cons q rest ih =>
    intro fuel hsuf hlen
    obtain ⟨f, rfl⟩ : ∃ f, fuel = f + 1 := by
      cases fuel with
      | zero => simp at hlen
      | succ f => exact ⟨f, rfl⟩
    have hget := get_revision_chainRevs L hN (q :: rest) q rest hsuf rfl
    by_cases hcur : some q = current_rev
    · simp [walkBack, hget, ← hcur, chainRevs_cons, List.takeWhile_cons, notCurrent]
    · cases rest with
      | nil =>
        simp [walkBack, hget, hcur, chainRevs_cons, chainRevs, List.takeWhile_cons, notCurrent]
      | cons b rest' =>
        have hsuf' : b :: rest' <:+ L := (List.suffix_cons q (b :: rest')).trans hsuf
        have hrec := ih f hsuf' (by simpa using Nat.le_of_succ_le_succ hlen)
        simp only [List.head?_cons, Option.some_bind] at hrec
        simp [walkBack, hget, hcur, chainRevs_cons, List.takeWhile_cons, notCurrent, hrec]

lemma takeWhile_all {α : Type} (p : α → Bool) (l : List α)
    (h : ∀ x ∈ l, p x = true) : l.takeWhile p = l := by
  induction l with
  | nil => rfl
  | cons a rest ih =>
    rw [List.takeWhile_cons, h a (List.mem_cons_self a rest)]
    simp [ih fun x hx => h x (List.mem_cons_of_mem a hx)]

lemma takeWhile_chainRevs_stop (xs ys : List String) (c : String)
    (hN : (xs ++ c :: ys).Nodup) :
    (chainRevs (xs ++ c :: ys)).takeWhile (notCurrent (some c))
      = (chainRevs (xs ++ c :: ys)).take xs.length := by
  induction xs with
  | nil =>
    rw [List.nil_append, chainRevs_cons, List.takeWhile_cons]
    simp [notCurrent]
  | cons x xs' ih =>
    have hx : x ≠ c := by
      intro h
      subst h
      exact (List.nodup_cons.mp hN).1 (by simp)
    rw [List.cons_append, chainRevs_cons, List.takeWhile_cons]
    have hpred : notCurrent (some c) ⟨x, (xs' ++ c :: ys).head?, ""⟩ = true := by
      simp [notCurrent, hx]
    rw [hpred, ih (List.nodup_cons.mp hN).2]
    simp [List.length_cons, List.take_succ_cons]

lemma reverse_take_eq_drop_reverse {α : Type} (l : List α) (j : Nat) :
    (l.take j).reverse = l.reverse.drop (l.length - j) := by
  have hsplit : l.reverse = (l.drop j).reverse ++ (l.take j).reverse := by
    rw [← List.reverse_append, List.take_append_drop]
  rw [hsplit, List.drop_left' (by simp)]

/-! ### Upgrade planning on linear chains -/

lemma reverse_middle (pre post : List String) (c : String) :
    (pre ++ c :: post).reverse = post.reverse ++ c :: pre.reverse := by
  simp [List.reverse_append]

lemma planUpgrade_chain_head (ids : List String) (hd : String) (hN : ids.Nodup)
    (hlast : ids.getLast? = some hd) :
    planUpgrade (chainRevs ids.reverse) none (some hd) = mkChain ids := by
  have hNrev : ids.reverse.Nodup := by simpa using hN
  have hhead : ids.reverse.head? = some hd := by simpa using hlast
  rw [planUpgrade, if_neg (by simp)]
  have hw := walkBack_chainRevs ids.reverse hNrev none ids.reverse ids.reverse.length
      (List.suffix_refl _) (le_refl _)
  rw [hhead, Option.some_bind] at hw
  rw [chainRevs_length, Option.some_bind, hw,
    takeWhile_all _ _ (fun x _ => by simp [notCurrent])]
  rfl

lemma planUpgrade_chain_mid (pre post : List String) (c hd : String)
    (hN : (pre ++ c :: post).Nodup) (hlast : (pre ++ c :: post).getLast? = some hd) :
    planUpgrade (chainRevs (pre ++ c :: post).reverse) (some c) (some hd)
      = (mkChain (pre ++ c :: post)).drop (pre.length + 1) := by
  have hlenMk : (mkChain (pre ++ c :: post)).length = pre.length + 1 + post.length := by
    simp [mkChain, chainRevs_length]
    omega
  cases post with
  | nil =>
    have hcd : c = hd := by
      rw [List.getLast?_concat] at hlast
      exact Option.some.inj hlast
    subst hcd
    rw [planUpgrade, if_pos rfl, eq_comm, List.drop_eq_nil_iff]
    simp only [List.length_nil] at hlenMk
    omega
  | cons p ps =>
    have hpost : (p :: ps).getLast? = some hd := by
      rw [List.getLast?_append, List.getLast?_cons_cons] at hlast
      cases hz : (p :: ps).getLast? with
      | none =>
        rw [List.getLast?_eq_none_iff] at hz
        simp at hz
      | some z =>
        rw [hz, Option.or_some] at hlast
        exact hlast
    have hhd_mem : hd ∈ p :: ps := List.mem_of_getLast?_eq_some hpost
    have hc_not : c ∉ p :: ps :=
      (List.nodup_cons.mp (hN.of_append_right)).1
    have hchd : ¬ (some c = some hd) := by
      intro h
      exact hc_not (Option.some.inj h ▸ hhd_mem)
    have hNrev : (pre ++ c :: p :: ps).reverse.Nodup := List.nodup_reverse.mpr hN
    have hhead : (pre ++ c :: p :: ps).reverse.head? = some hd := by
      rw [List.head?_reverse]
      exact hlast
    rw [planUpgrade, if_neg (by simpa using hchd)]
    have hw := walkBack_chainRevs (pre ++ c :: p :: ps).reverse hNrev (some c)
        (pre ++ c :: p :: ps).reverse (pre ++ c :: p :: ps).reverse.length
        (List.suffix_refl _) (le_refl _)
    rw [hhead, Option.some_bind] at hw
    rw [chainRevs_length, Option.some_bind, hw]
    have hdecomp : (pre ++ c :: p :: ps).reverse = (p :: ps).reverse ++ c :: pre.reverse :=
      reverse_middle pre (p :: ps) c
    have hstop := takeWhile_chainRevs_stop ((p :: ps).reverse) (pre.reverse) c
        (by rw [← hdecomp]; exact hNrev)
    rw [hdecomp, hstop, reverse_take_eq_drop_reverse]
    rw [mkChain, hdecomp]
    congr 1
    rw [chainRevs_length]
    simp only [List.length_append, List.length_reverse, List.length_cons]
    omega

/-! ### Runner behaviour -/

lemma lastState_cons (r : Revision) (plan : List Revision) (st : Option String) :
    lastState (r :: plan) st = lastState plan (some r.revision) := by
  cases plan with
  | nil => rfl
  | cons p ps =>
    simp only [lastState, List.getLast?_cons_cons]
    cases h : (p :: ps).getLast? with
    | none =>
      rw [List.getLast?_eq_none_iff] at h
      simp at h
    | some r' => rfl

lemma runUpgrade_success (apply : String → Bool) (plan : List Revision) (st : Option String)
    (h : ∀ r ∈ plan, apply r.revision = true) :
    runUpgrade apply plan st = (lastState plan st, plan.map Revision.revision, none) := by
  induction plan generalizing st with
  | nil => rfl
  | cons r rest ih =>
    have hr : apply r.revision = true := h r (List.mem_cons_self r rest)
    rw [runUpgrade, if_pos hr, ih (some r.revision) fun x hx => h x (List.mem_cons_of_mem r hx),
      lastState_cons]
    rfl

lemma lastDown_cons (r : Revision) (plan : List Revision) (st : Option String) :
    lastDown (r :: plan) st = lastDown plan r.down_revision := by
  cases plan with
  | nil => rfl
  | cons p ps =>
    simp only [lastDown, List.getLast?_cons_cons]
    cases h : (p :: ps).getLast? with
    | none =>
      rw [List.getLast?_eq_none_iff] at h
      simp at h
    | some r' => rfl

lemma runDowngrade_success (revert : String → Bool) (plan : List Revision) (st : Option String)
    (h : ∀ r ∈ plan, revert r.revision = true) :
    runDowngrade revert plan st = (lastDown plan st, plan.map Revision.revision, none) := by
  induction plan generalizing st with
  | nil => rfl
  | cons r rest ih =>
    have hr : revert r.revision = true := h r (List.mem_cons_self r rest)
    rw [runDowngrade, if_pos hr, ih r.down_revision fun x hx => h x (List.mem_cons_of_mem r hx),
      lastDown_cons]
    rfl

lemma chainRevs_getLast_down (L : List String) :
    ∀ r, (chainRevs L).getLast? = some r → r.down_revision = none := by
  induction L with
  | nil => intro r hr; simp [chainRevs] at hr
  | cons a rest ih =>
    intro r hr
    cases rest with
    | nil =>
      simp only [chainRevs, List.getLast?_singleton] at hr
      cases hr
      rfl
    | cons b rest' =>
      rw [chainRevs_cons, chainRevs_cons, List.getLast?_cons_cons] at hr
      exact ih r (by rw [chainRevs_cons]; exact hr)

/-! ### Head lookup on linear chains -/

lemma get_current_head_chainRevs (L : List String) (hN : L.Nodup) :
    get_current_head (chainRevs L) = L.head? := by
  cases L with
  | nil => rfl
  | cons a t =>
    have hanot : a ∉ t := (List.nodup_cons.mp hN).1
    rw [get_current_head, chainRevs_cons]
    have hnotdown : ((⟨a, t.head?, ""⟩ :: chainRevs t).any
        fun s => s.down_revision == some a) = false := by
      rw [List.any_eq_false]
      intro s hs hcontra
      have hy : s.down_revision = some a := by simpa using hcontra
      rcases List.mem_cons.mp hs with hhead | htail
      · subst hhead
        simp only at hy
        exact hanot (List.mem_of_mem_head? hy)
      · exact hanot (chainRevs_down_mem t s htail a hy)
    rw [List.find?_cons]
    simp only [hnotdown]
    rfl

/-! ### Downgrade planning on linear chains -/

lemma planDowngrade_suffix (L : List String) (hN : L.Nodup) :
    ∀ (rest : List String) (q : String), (q :: rest) <:+ L →
      ∀ steps, planDowngrade (chainRevs L) steps q = (chainRevs (q :: rest)).take steps := by
  intro rest
  induction rest with
  | nil =>
    intro q hsuf steps
    have hget := get_revision_chainRevs L hN [q] q [] hsuf rfl
    cases steps with
    | zero => rfl
    | succ s => simp [planDowngrade, hget, chainRevs_cons, chainRevs]
  | cons b rest' ih =>
    intro q hsuf steps
    have hget := get_revision_chainRevs L hN (q :: b :: rest') q (b :: rest') hsuf rfl
    cases steps with
    | zero => rfl
    | succ s =>
      have hsuf' : b :: rest' <:+ L := (List.suffix_cons q (b :: rest')).trans hsuf
      simp only [planDowngrade, hget, List.head?_cons]
      rw [ih b hsuf' s]
      simp [chainRevs_cons, List.take_succ_cons]


/-! ### Claims -/

lemma runUpgrade_fail (apply : String → Bool) (p2 : List Revision) (rk : Revision)
    (h2 : apply rk.revision = false) :
    ∀ (p1 : List Revision) (st : Option String), (∀ r ∈ p1, apply r.revision = true) →
      runUpgrade apply (p1 ++ rk :: p2) st
        = (lastState p1 st, (p1 ++ [rk]).map Revision.revision, some rk.revision) := by
  intro p1
  induction p1 with
  | nil =>
    intro st _
    simp [runUpgrade, h2, lastState]
  | cons a p1' ih =>
    intro st h1
    have ha : apply a.revision = true := h1 a (List.mem_cons_self a p1')
    rw [List.cons_append, runUpgrade, if_pos ha,
      ih (some a.revision) fun x hx => h1 x (List.mem_cons_of_mem a hx), lastState_cons]
    rfl

/-- Claim C1: for every upgrade plan `p1 ++ rk :: p2` executed by the
migration runner in which every revision of `p1` applies successfully and the
apply of `rk` fails, execution aborts at `rk`: the reported error names `rk`,
exactly the revisions of `p1` followed by `rk` are attempted (no revision
after `rk`), and the persisted state is the id of the last revision of `p1`
(or the pre-call state when `p1` is empty). -/
theorem claim_C1 (apply : String → Bool) (p1 p2 : List Revision) (rk : Revision)
    (st : Option String)
    (h1 : ∀ r ∈ p1, apply r.revision = true) (h2 : apply rk.revision = false) :
    runUpgrade apply (p1 ++ rk :: p2) st
      = (lastState p1 st, (p1 ++ [rk]).map Revision.revision, some rk.revision) :=
  runUpgrade_fail apply p2 rk h2 p1 st h1

/-- Witness for C1 on the chain r1 -> r2 -> r3 with the apply of r2 failing:
state stays at r1, attempts are exactly r1 then r2, the error names r2. -/
theorem claim_C1_witness :
    (!("r1" == "r2")) = true ∧ (!("r2" == "r2")) = false ∧
    runUpgrade (fun s => !(s == "r2"))
        ([Revision.mk "r1" none ""] ++ Revision.mk "r2" (some "r1") "" :: [Revision.mk "r3" (some "r2") ""]) none
      = (some "r1", ["r1", "r2"], some "r2") := by
  refine ⟨by decide, by decide, ?_⟩
  have h := claim_C1 (fun s => !(s == "r2")) [Revision.mk "r1" none ""]
      [Revision.mk "r3" (some "r2") ""] (Revision.mk "r2" (some "r1") "") none
      (by decide) (by decide)
  exact h

/-- Claim C2: on a linear chain given oldest-to-newest as `pre ++ c :: post`
with head `hd`, upgrade planning walks backward from the target through
predecessor links until reaching the current revision (or the root when there
is none) and reverses into oldest-to-newest order: from no current revision
it plans the whole chain, and from current revision `c` it plans exactly the
revisions after `c`. -/
theorem claim_C2 (pre post : List String) (c hd : String)
    (hN : (pre ++ c :: post).Nodup) (hlast : (pre ++ c :: post).getLast? = some hd) :
    planUpgrade (chainRevs (pre ++ c :: post).reverse) none (some hd)
      = mkChain (pre ++ c :: post) ∧
    planUpgrade (chainRevs (pre ++ c :: post).reverse) (some c) (some hd)
      = (mkChain (pre ++ c :: post)).drop (pre.length + 1) :=
  ⟨planUpgrade_chain_head (pre ++ c :: post) hd hN hlast,
   planUpgrade_chain_mid pre post c hd hN hlast⟩

/-- Witness for C2 on the chain r1 -> r2 -> r3: planning from nothing yields
the whole chain, planning from r2 yields only r3. -/
theorem claim_C2_witness :
    planUpgrade (chainRevs ["r3", "r2", "r1"]) none (some "r3") = mkChain ["r1", "r2", "r3"] ∧
    planUpgrade (chainRevs ["r3", "r2", "r1"]) (some "r2") (some "r3")
      = (mkChain ["r1", "r2", "r3"]).drop 2 := by
  have h := claim_C2 ["r1"] ["r3"] "r2" "r3" (by decide) (by decide)
  exact ⟨h.1, h.2⟩

/-- Claim C3 (evaluation at the failing input): on the chain
r1 -> r2 -> r3 -> r4 with applied state r2, the status report of
`scripts/migrate.py showmigrations` marks r1 as pending and r2, r3, r4 as
applied — the inverse of the claimed classification (r1, r2 applied;
r3, r4 pending). -/
theorem claim_C3_eval :
    showmigrations (MarkerTable.row "r2") (chainRevs ["r4", "r3", "r2", "r1"])
      = [("r1", false), ("r2", true), ("r3", true), ("r4", true)] := by decide

/-- Claim C4: when the resolved upgrade target equals the current revision,
planning returns the empty sequence (both through the early-return guard and
through the backward walk itself, which stops immediately at the target), and
the migrate operation performs no apply actions and leaves the state
unchanged. -/
theorem claim_C4 (revs : List Revision) (c : Option String) (t : String)
    (apply : String → Bool) :
    planUpgrade revs c c = [] ∧
    (∀ fuel, walkBack revs fuel (get_revision revs t) (some t) = []) ∧
    migrate revs apply c c = (c, [], none) := by
  refine ⟨by simp [planUpgrade], ?_, by simp [migrate]⟩
  intro fuel
  cases fuel with
  | zero => rfl
  | succ f =>
    cases hr : get_revision revs t with
    | none => rfl
    | some r =>
      have hrev : r.revision = t := by
        have hp := List.find?_some hr
        simpa using hp
      simp [walkBack, hrev]

/-- Claim C5: on a linear chain given oldest-to-newest as `pre ++ cur :: post`
with current revision `cur`, downgrade planning collects the revisions to
revert in current-to-oldest order, walking backward exactly `steps` times or
until the root, whichever comes first, so the plan has `min steps (pre.length
+ 1)` entries and reaching the root early is not an error. -/
theorem claim_C5 (pre post : List String) (cur : String) (steps : Nat)
    (hN : (pre ++ cur :: post).Nodup) :
    planDowngrade (chainRevs (pre ++ cur :: post).reverse) steps cur
      = (chainRevs (cur :: pre.reverse)).take steps ∧
    (planDowngrade (chainRevs (pre ++ cur :: post).reverse) steps cur).length
      = min steps (pre.length + 1) := by
  have hNrev := List.nodup_reverse.mpr hN
  have hdecomp : (pre ++ cur :: post).reverse = post.reverse ++ cur :: pre.reverse :=
    reverse_middle pre post cur
  have hsuf : cur :: pre.reverse <:+ (pre ++ cur :: post).reverse := by
    rw [hdecomp]
    exact List.suffix_append _ _
  have h := planDowngrade_suffix (pre ++ cur :: post).reverse hNrev pre.reverse cur hsuf steps
  refine ⟨h, ?_⟩
  rw [h, List.length_take, chainRevs_length]
  simp

/-- Witness for C5 on the chain r1 -> r2 -> r3: a two-step downgrade from the
head plans exactly r3 then r2, in that order. -/
theorem claim_C5_witness :
    planDowngrade (chainRevs ["r3", "r2", "r1"]) 2 "r3"
      = [⟨"r3", some "r2", ""⟩, ⟨"r2", some "r1", ""⟩] ∧
    (planDowngrade (chainRevs ["r3", "r2", "r1"]) 2 "r3").length = 2 := by
  have h := claim_C5 ["r1", "r2"] [] "r3" 2 (by decide)
  exact ⟨h.1.trans (by decide), h.2.trans (by decide)⟩

/-- Claim C6 (round trip): on a linear chain of length n with head `hd`,
starting from no applied revision, executing the migrate command to head
lands the state on `hd`, and then executing the n-step downgrade plan from
`hd` returns the state to none, provided every apply and revert action
succeeds. -/
theorem claim_C6 (ids : List String) (hd : String) (apply revert : String → Bool)
    (hN : ids.Nodup) (hlast : ids.getLast? = some hd)
    (hap : ∀ r ∈ chainRevs ids.reverse, apply r.revision = true)
    (hrev : ∀ r ∈ chainRevs ids.reverse, revert r.revision = true) :
    (migrate (chainRevs ids.reverse) apply none (some hd)).1 = some hd ∧
    (runDowngrade revert (planDowngrade (chainRevs ids.reverse) ids.length hd) (some hd)).1
      = none := by
  have hLhead : ids.reverse.head? = some hd := by
    rw [List.head?_reverse]
    exact hlast
  obtain ⟨tl, hL⟩ : ∃ tl, ids.reverse = hd :: tl := by
    cases hcase : ids.reverse with
    | nil =>
      rw [hcase] at hLhead
      cases hLhead
    | cons a tl =>
      rw [hcase, List.head?_cons] at hLhead
      exact ⟨tl, by rw [Option.some.inj hLhead]⟩
  constructor
  · rw [migrate, if_neg (by simp), planUpgrade_chain_head ids hd hN hlast,
      runUpgrade_success apply (mkChain ids) none
        (fun r hr => hap r (List.mem_reverse.mp (by rwa [mkChain] at hr)))]
    have hlast' : (mkChain ids).getLast? = some ⟨hd, tl.head?, ""⟩ := by
      rw [mkChain, List.getLast?_reverse, hL, chainRevs_cons, List.head?_cons]
    simp [lastState, hlast']
  · have hfull : planDowngrade (chainRevs ids.reverse) ids.length hd = chainRevs ids.reverse := by
      have hsuf : hd :: tl <:+ ids.reverse := by
        rw [hL]
      have h := planDowngrade_suffix ids.reverse (List.nodup_reverse.mpr hN) tl hd hsuf ids.length
      rw [← hL] at h
      rw [h]
      have hlen : ids.length = (chainRevs ids.reverse).length := by
        rw [chainRevs_length]
        simp
      rw [hlen, List.take_length]
    rw [hfull, runDowngrade_success revert _ (some hd) hrev]
    have hne : chainRevs ids.reverse ≠ [] := by
      rw [hL, chainRevs_cons]
      simp
    obtain ⟨r, hr⟩ : ∃ r, (chainRevs ids.reverse).getLast? = some r := by
      cases hcase : (chainRevs ids.reverse).getLast? with
      | none =>
        rw [List.getLast?_eq_none_iff] at hcase
        exact absurd hcase hne
      | some r => exact ⟨r, rfl⟩
    simp [lastDown, hr, chainRevs_getLast_down ids.reverse r hr]

/-- Witness for C6 on the chain r1 -> r2 with all actions succeeding: the
upgrade reaches r2 and the two-step downgrade returns the state to none. -/
theorem claim_C6_witness :
    (migrate (chainRevs ["r2", "r1"]) (fun _ => true) none (some "r2")).1 = some "r2" ∧
    (runDowngrade (fun _ => true) (planDowngrade (chainRevs ["r2", "r1"]) 2 "r2") (some "r2")).1
      = none := by
  have h := claim_C6 ["r1", "r2"] "r2" (fun _ => true) (fun _ => true)
      (by decide) (by decide) (by decide) (by decide)
  exact ⟨h.1, h.2⟩

/-- Counterexample for C7 as stated: when the check itself fails (the engine
cannot connect), the command exits 1 even though the persisted current
revision equals the head revision, so "exit 1 iff current differs from head"
is false. -/
theorem claim_C7_cex :
    read_marker (MarkerTable.row "r1") = get_current_head (chainRevs ["r1"]) ∧
    migrate_check false (MarkerTable.row "r1") (chainRevs ["r1"]) = 1 := by decide

/-- Claim C7 (amended): when the check runs to completion, migrate-check
exits 1 iff the current revision read from the marker differs from the head
revision and exits 0 iff they agree; when the check itself raises, it exits 1
regardless. -/
theorem claim_C7 (marker : MarkerTable) (revs : List Revision) :
    (migrate_check true marker revs = 1 ↔ read_marker marker ≠ get_current_head revs) ∧
    (migrate_check true marker revs = 0 ↔ read_marker marker = get_current_head revs) ∧
    migrate_check false marker revs = 1 := by
  refine ⟨?_, ?_, rfl⟩ <;>
    by_cases h : read_marker marker = get_current_head revs <;>
      simp [migrate_check, h]

/-- Counterexample for C8 as stated: `check_pending` does not treat the
missing marker table and the missing marker row identically — on an empty
revision store the missing table reports pending migrations while the empty
table reports none. -/
theorem claim_C8_cex :
    check_pending true MarkerTable.missing [] = true ∧
    check_pending true MarkerTable.empty [] = false := by decide

/-- Claim C8 (amended): reading the marker yields none, not an error, both
when the table and when the row is absent, and migrate-check treats the two
states identically; `check_pending` short-circuits to "pending" on a missing
table, which coincides with the missing-row behaviour exactly when the loaded
graph has a head (at least one revision). -/
theorem claim_C8 (revs : List Revision) (h : get_current_head revs ≠ none) :
    read_marker MarkerTable.missing = none ∧
    read_marker MarkerTable.empty = none ∧
    migrate_check true MarkerTable.missing revs = migrate_check true MarkerTable.empty revs ∧
    check_pending true MarkerTable.missing revs = check_pending true MarkerTable.empty revs := by
  refine ⟨rfl, rfl, rfl, ?_⟩
  cases hh : get_current_head revs with
  | none => exact absurd hh h
  | some v => simp [check_pending, hh]

/-- Witness for C8 on the one-revision chain r1, whose head exists. -/
theorem claim_C8_witness :
    read_marker MarkerTable.missing = none ∧
    read_marker MarkerTable.empty = none ∧
    migrate_check true MarkerTable.missing (chainRevs ["r1"])
      = migrate_check true MarkerTable.empty (chainRevs ["r1"]) ∧
    check_pending true MarkerTable.missing (chainRevs ["r1"])
      = check_pending true MarkerTable.empty (chainRevs ["r1"]) :=
  claim_C8 (chainRevs ["r1"]) (by decide)

/-- Counterexample for C9 as stated: on the chain r1 -> r2, the manage.py
`migrate-history` command prints the chain oldest-first (r1 then r2), not
newest-first. -/
theorem claim_C9_cex :
    migrate_history (chainRevs ["r2", "r1"]) ≠ chainRevs ["r2", "r1"] ∧
    (migrate_history (chainRevs ["r2", "r1"])).map Revision.revision = ["r1", "r2"] := by decide

/-- Claim C9 (amended): the `history` command of `scripts/migrate.py` prints
the chain newest-first truncated to at most `limit` entries, while the
manage.py `migrate-history` command prints the whole chain oldest-first and
accepts no limit. -/
theorem claim_C9 (ids : List String) (limit : Nat) :
    (history (chainRevs ids) limit).map Revision.revision = ids.take limit ∧
    (history (chainRevs ids) limit).length = min limit ids.length ∧
    (migrate_history (chainRevs ids)).map Revision.revision = ids.reverse := by
  refine ⟨?_, ?_, ?_⟩
  · rw [history, walk_revisions, List.map_take, chainRevs_map_revision]
  · rw [history, walk_revisions, List.length_take, chainRevs_length]
  · rw [migrate_history, walk_revisions, List.map_reverse, chainRevs_map_revision]

/-- Claim C10: when creating or connecting the database engine fails,
`check_pending` swallows the exception and returns false, so the `check`
command exits 0 and reports the database up to date — even in a situation
where, with a working engine, the same marker and store would report pending
migrations (exit 1). -/
theorem claim_C10 (marker : MarkerTable) (revs : List Revision) :
    check_pending false marker revs = false ∧
    check_cmd false marker revs = 0 ∧
    check_cmd true MarkerTable.missing (chainRevs ["r9"]) = 1 :=
  ⟨rfl, rfl, by decide⟩
